import Mathlib

/-!
Shallow embedding of the extended radix-2 evaluation domain
(`extended_radix2_domain.hpp`) and of the Lagrange-interpolation stub
(`lagrange_interpolation.hpp`) of the crypto3-math repository, together
with proofs of the specified properties.

Machine vectors of field elements become `List F` over an abstract
`Field F`; the in-place mutations of the C++ code become functions that
return the new contents of the buffer; functions that throw become
`Option`- or `Except`-valued functions.
-/

open Finset

namespace Crypto3Math

variable {F : Type} [Field F]

/-- Modelled from the spec: `BasicRadix2FFT(vector, generator)`
(`detail::basic_radix2_fft`, external to the given sources) — the plain
forward transform over the power-of-two subgroup generated by `g`.  It
replaces a coefficient vector by its values on that subgroup: entry `i`
becomes the sum of `a[j] * g^(i*j)` over all `j`. -/
def basic_radix2_fft (a : List F) (g : F) : List F :=
  (List.range a.length).map fun i => ∑ j ∈ Finset.range a.length, a.getD j 0 * g ^ (i * j)

/-- Modelled from the spec: `BasicRadix2LagrangeAll(order, t)`
(`detail::basic_radix2_evaluate_all_lagrange_polynomials`, external to the
given sources) — the Lagrange basis of the order-`n` power-of-two domain
`g^0, …, g^(n-1)` evaluated at `t`.  The source routine obtains the
order-`n` unity root internally; here that root `g` is an explicit
argument. -/
def basic_radix2_evaluate_all_lagrange_polynomials (n : ℕ) (g : F) (t : F) : List F :=
  (List.range n).map fun i => ∏ j ∈ (Finset.range n).erase i, (t - g ^ j) / (g ^ i - g ^ j)

/-- Modelled from the spec: `evaluate_polynomial`, the standard
coefficient-form evaluator (an external utility): the sum of
`a[j] * t^j`. -/
def evaluate_polynomial (a : List F) (t : F) : F :=
  ∑ j ∈ Finset.range a.length, a.getD j 0 * t ^ j

/-- The data of `extended_radix2_domain<FieldType>`: the size `m`
inherited from `evaluation_domain`, and the members `small_m`, `omega`
and `shift`. -/
structure extended_radix2_domain (F : Type) where
  m : ℕ
  small_m : ℕ
  omega : F
  shift : F
deriving DecidableEq

namespace extended_radix2_domain

/-- Translation of `extended_radix2_domain::fft`.  A vector longer than
`m` is rejected (`SizeMismatch`, i.e. `none`); a shorter one is resized
with zeroes.  Then `a0[i] = a[i] + a[small_m+i]` and
`a1[i] = shift^i * (a[i] + shift^small_m * a[small_m+i])` are transformed
by the basic radix-2 FFT with generator `omega`, and written back into
positions `0, …, small_m-1` and `small_m, …, 2*small_m-1`; any further
position keeps the value it had after the resize. -/
def fft (D : extended_radix2_domain F) (a : List F) : Option (List F) :=
  if D.m < a.length then none else
  let ap := a ++ List.replicate (D.m - a.length) (0 : F)
  let shift_to_small_m := D.shift ^ D.small_m
  let a0 := (List.range D.small_m).map fun i => ap.getD i 0 + ap.getD (D.small_m + i) 0
  let a1 := (List.range D.small_m).map fun i =>
    D.shift ^ i * (ap.getD i 0 + shift_to_small_m * ap.getD (D.small_m + i) 0)
  let A0 := basic_radix2_fft a0 D.omega
  let A1 := basic_radix2_fft a1 D.omega
  some ((List.range D.m).map fun i =>
    if i < D.small_m then A0.getD i 0
    else if i < D.small_m + D.small_m then A1.getD (i - D.small_m) 0
    else ap.getD i 0)

/-- Translation of `extended_radix2_domain::inverse_fft`.  Same size
handling as `fft`; the two positional halves are transformed by the basic
radix-2 FFT with generator `omega⁻¹` and recombined through
`sconst = (small_m * (1 - shift^small_m))⁻¹` and the accumulated powers
of `shift⁻¹`. -/
def inverse_fft (D : extended_radix2_domain F) (a : List F) : Option (List F) :=
  if D.m < a.length then none else
  let ap := a ++ List.replicate (D.m - a.length) (0 : F)
  let a0 := ap.take D.small_m
  let a1 := ap.drop D.small_m
  let c0 := basic_radix2_fft a0 D.omega⁻¹
  let c1 := basic_radix2_fft a1 D.omega⁻¹
  let shift_to_small_m := D.shift ^ D.small_m
  let sconst := ((D.small_m : F) * (1 - shift_to_small_m))⁻¹
  some ((List.range D.m).map fun i =>
    if i < D.small_m then
      sconst * (-shift_to_small_m * c0.getD i 0 + D.shift⁻¹ ^ i * c1.getD i 0)
    else if i < D.small_m + D.small_m then
      sconst * (c0.getD (i - D.small_m) 0 - D.shift⁻¹ ^ (i - D.small_m) * c1.getD (i - D.small_m) 0)
    else ap.getD i 0)

/-- Translation of
`extended_radix2_domain::evaluate_all_lagrange_polynomials`: the two
basic Lagrange-basis vectors at `t` and `t * shift⁻¹`, rescaled by
`T0_coeff` and `T1_coeff`, written into a zero-initialised vector of
length `m`. -/
def evaluate_all_lagrange_polynomials (D : extended_radix2_domain F) (t : F) : List F :=
  let T0 := basic_radix2_evaluate_all_lagrange_polynomials D.small_m D.omega t
  let T1 := basic_radix2_evaluate_all_lagrange_polynomials D.small_m D.omega (t * D.shift⁻¹)
  let t_to_small_m := t ^ D.small_m
  let shift_to_small_m := D.shift ^ D.small_m
  let one_over_denom := (shift_to_small_m - 1)⁻¹
  let T0_coeff := (t_to_small_m - shift_to_small_m) * (-one_over_denom)
  let T1_coeff := (t_to_small_m - 1) * one_over_denom
  (List.range D.m).map fun i =>
    if i < D.small_m then T0.getD i 0 * T0_coeff
    else if i < D.small_m + D.small_m then T1.getD (i - D.small_m) 0 * T1_coeff
    else 0

/-- Translation of `extended_radix2_domain::get_domain_element`. -/
def get_domain_element (D : extended_radix2_domain F) (idx : ℕ) : F :=
  if idx < D.small_m then D.omega ^ idx else D.shift * D.omega ^ (idx - D.small_m)

/-- Translation of `extended_radix2_domain::compute_vanishing_polynomial`. -/
def compute_vanishing_polynomial (D : extended_radix2_domain F) (t : F) : F :=
  (t ^ D.small_m - 1) * (t ^ D.small_m - D.shift ^ D.small_m)

/-- Translation of `extended_radix2_domain::add_poly_z`: adds `coeff` into
`H[m]`, subtracts `coeff * (shift^small_m + 1)` from `H[small_m]`, and
adds `coeff * shift^small_m` into `H[0]` (the length check on `H` is
commented out in the source). -/
def add_poly_z (D : extended_radix2_domain F) (coeff : F) (H : List F) : List F :=
  let shift_to_small_m := D.shift ^ D.small_m
  let H1 := H.set D.m (H.getD D.m 0 + coeff)
  let H2 := H1.set D.small_m (H1.getD D.small_m 0 - coeff * (shift_to_small_m + 1))
  H2.set 0 (H2.getD 0 0 + coeff * shift_to_small_m)

/-- Translation of `extended_radix2_domain::divide_by_z_on_coset`, with
the field's `multiplicative_generator` (`coset` in the source) passed
explicitly as `g`: the first `small_m` entries are multiplied by `Z0⁻¹`
and the next `small_m` entries by `Z1⁻¹`. -/
def divide_by_z_on_coset (D : extended_radix2_domain F) (g : F) (P : List F) : List F :=
  let coset_to_small_m := g ^ D.small_m
  let shift_to_small_m := D.shift ^ D.small_m
  let Z0 := (coset_to_small_m - 1) * (coset_to_small_m - shift_to_small_m)
  let Z1 := (coset_to_small_m * shift_to_small_m - 1) *
    (coset_to_small_m * shift_to_small_m - shift_to_small_m)
  (List.range P.length).map fun i =>
    if i < D.small_m then P.getD i 0 * Z0⁻¹
    else if i < D.small_m + D.small_m then P.getD i 0 * Z1⁻¹
    else P.getD i 0

end extended_radix2_domain

/-- Fuel-driven recursion computing the ceiling of the base-2 logarithm:
`ceil_log2_go (fuel+1) n` is `0` for `n ≤ 1` and otherwise one more than
the value at `⌈n/2⌉`. -/
def ceil_log2_go : ℕ → ℕ → ℕ
  | 0, _ => 0
  | fuel + 1, n => if n ≤ 1 then 0 else ceil_log2_go fuel ((n + 1) / 2) + 1

/-- The `static_cast<std::size_t>(std::ceil(std::log2(m)))` of the
constructor, as an exact natural-number function (shown below to agree
with Mathlib's `Nat.clog 2`). -/
def ceil_log2 (n : ℕ) : ℕ :=
  ceil_log2_go n n

/-- The two failure kinds reachable from domain construction:
`InvalidDomainSize` for the size checks of the constructor itself, and
`InvalidUnityRootOrder` for a failing unity-root lookup. -/
inductive DomainError where
  | InvalidDomainSize : DomainError
  | InvalidUnityRootOrder : DomainError
deriving DecidableEq

/-- Modelled from the spec: the field's compile-time arithmetic
parameters — the 2-adicity `s`, a root of unity of order `2^s`, the
multiplicative generator, and the coset-shift constant returned by
`detail::coset_shift` (all external to the given sources). -/
structure arithmetic_params (F : Type) where
  s : ℕ
  root_of_unity : F
  multiplicative_generator : F
  coset_shift : F

/-- Modelled from the spec: `unity_root<FieldType>(n)` (external to the
given sources) — returns a generator of the subgroup of order `n`; it
fails if `n` is not a power of two, or exceeds the power-of-two subgroup
the field supports (`2^s`).  On success the result is
`root_of_unity ^ (2 ^ (s - log2(n)))`. -/
def unity_root (p : arithmetic_params F) (n : ℕ) : Except DomainError F :=
  let logn := ceil_log2 n
  if n ≠ 2 ^ logn then .error .InvalidUnityRootOrder
  else if p.s < logn then .error .InvalidUnityRootOrder
  else .ok (p.root_of_unity ^ 2 ^ (p.s - logn))

/-- Translation of the constructor `extended_radix2_domain(m)` for an
exact (non-floating-point) field, the `std::complex<double>` escape
branch thus omitted: rejects `m ≤ 1` and `ceil(log2 m) ≠ s + 1` with
`InvalidDomainSize`, then sets `small_m = m / 2`,
`omega = unity_root(small_m)` (whose failure propagates) and
`shift = coset_shift`. -/
def mk_extended_radix2_domain (p : arithmetic_params F) (m : ℕ) :
    Except DomainError (extended_radix2_domain F) :=
  if m ≤ 1 then .error .InvalidDomainSize
  else if ceil_log2 m ≠ p.s + 1 then .error .InvalidDomainSize
  else
    match unity_root p (m / 2) with
    | .error e => .error e
    | .ok w => .ok ⟨m, m / 2, w, p.coset_shift⟩

/-- Translation of `lagrange_interpolation` from
`src/include/nil/crypto3/math/polynomial/lagrange_interpolation.hpp`:
the body ignores `points` and returns the default-constructed
`polynom<FieldValueType>`, i.e. the empty coefficient vector. -/
def lagrange_interpolation (points : List (F × F)) : List F :=
  []

/-! ### Helper lemmas -/

lemma ceil_log2_go_eq_clog {fuel n : ℕ} (h : n ≤ fuel) :
    ceil_log2_go fuel n = Nat.clog 2 n := by
  induction fuel generalizing n with
  | zero =>
    have hn : n = 0 := by omega
    subst hn
    simp [ceil_log2_go]
  | succ fuel ih =>
    by_cases h1 : n ≤ 1
    · rw [ceil_log2_go, if_pos h1, Nat.clog_of_right_le_one h1]
    · rw [ceil_log2_go, if_neg h1,
        Nat.clog_of_two_le (by omega) (by omega), ih (by omega)]
      norm_num

/-- Validation of the `ceil_log2` model: it agrees with Mathlib's
ceiling base-2 logarithm. -/
lemma ceil_log2_eq_clog (n : ℕ) : ceil_log2 n = Nat.clog 2 n :=
  ceil_log2_go_eq_clog le_rfl

section ListHelpers

variable {α : Type}

lemma getD_map_range (d : α) (f : ℕ → α) {k i : ℕ} (h : i < k) :
    ((List.range k).map f).getD i d = f i := by
  simp [List.getD_eq_getElem?_getD, List.getElem?_range h]

lemma getD_take (l : List α) (d : α) {n i : ℕ} (h : i < n) :
    (l.take n).getD i d = l.getD i d := by
  simp [List.getD_eq_getElem?_getD, List.getElem?_take_of_lt h]

lemma getD_drop (l : List α) (d : α) (n i : ℕ) :
    (l.drop n).getD i d = l.getD (n + i) d := by
  simp [List.getD_eq_getElem?_getD, List.getElem?_drop]

end ListHelpers

lemma basic_radix2_fft_length (a : List F) (g : F) :
    (basic_radix2_fft a g).length = a.length := by
  simp [basic_radix2_fft]

lemma basic_radix2_fft_getD (a : List F) (g : F) {i : ℕ} (h : i < a.length) :
    (basic_radix2_fft a g).getD i 0 =
      ∑ j ∈ Finset.range a.length, a.getD j 0 * g ^ (i * j) := by
  rw [basic_radix2_fft, getD_map_range _ _ h]

lemma sum_range_add_split (f : ℕ → F) (m k : ℕ) :
    ∑ j ∈ Finset.range (m + k), f j =
      (∑ j ∈ Finset.range m, f j) + ∑ j ∈ Finset.range k, f (m + j) := by
  induction k with
  | zero => simp
  | succ k ih => rw [Nat.add_succ, Finset.sum_range_succ, ih, Finset.sum_range_succ, add_assoc]

/-! ### Discrete-Fourier-transform arithmetic over the field -/

lemma omega_ne_zero {ω : F} {n : ℕ} (hn : 0 < n) (hω : ω ^ n = 1) : ω ≠ 0 := by
  intro h0
  rw [h0, zero_pow hn.ne'] at hω
  exact zero_ne_one hω

lemma pow_inj_of_prim {ω : F} {n : ℕ} (h0 : ω ≠ 0)
    (hprim : ∀ d ∈ Finset.Ico 1 n, ω ^ d ≠ 1)
    {i j : ℕ} (hi : i < n) (hj : j < n) (hij : ω ^ i = ω ^ j) : i = j := by
  rcases Nat.lt_trichotomy i j with h | h | h
  · exfalso
    refine hprim (j - i) (Finset.mem_Ico.mpr ⟨by omega, by omega⟩) ?_
    have hmul : ω ^ i * ω ^ (j - i) = ω ^ i * 1 := by
      rw [mul_one, ← pow_add, Nat.add_sub_cancel' h.le]
      exact hij.symm
    exact mul_left_cancel₀ (pow_ne_zero i h0) hmul
  · exact h
  · exfalso
    refine hprim (i - j) (Finset.mem_Ico.mpr ⟨by omega, by omega⟩) ?_
    have hmul : ω ^ j * ω ^ (i - j) = ω ^ j * 1 := by
      rw [mul_one, ← pow_add, Nat.add_sub_cancel' h.le]
      exact hij
    exact mul_left_cancel₀ (pow_ne_zero j h0) hmul

lemma geom_sum_pow_eq {ω : F} {n : ℕ} (hn : 0 < n) (hω : ω ^ n = 1)
    (hprim : ∀ d ∈ Finset.Ico 1 n, ω ^ d ≠ 1)
    {i j : ℕ} (hi : i < n) (hj : j < n) :
    ∑ k ∈ Finset.range n, (ω ^ j * (ω ^ i)⁻¹) ^ k = if j = i then (n : F) else 0 := by
  have h0 : ω ≠ 0 := omega_ne_zero hn hω
  by_cases hji : j = i
  · subst hji
    rw [if_pos rfl, mul_inv_cancel₀ (pow_ne_zero j h0)]
    simp
  · rw [if_neg hji]
    have hx1 : ω ^ j * (ω ^ i)⁻¹ ≠ 1 := by
      intro h1
      rw [mul_inv_eq_one₀ (pow_ne_zero i h0)] at h1
      exact hji (pow_inj_of_prim h0 hprim hj hi h1)
    have hxn : (ω ^ j * (ω ^ i)⁻¹) ^ n = 1 := by
      rw [mul_pow, ← inv_pow, ← pow_mul, ← pow_mul,
        mul_comm j n, mul_comm i n, pow_mul, pow_mul, hω]
      simp [inv_pow, hω]
    rw [geom_sum_eq hx1, hxn, sub_self, zero_div]

lemma dft_dft {ω : F} {n : ℕ} (hn : 0 < n) (hω : ω ^ n = 1)
    (hprim : ∀ d ∈ Finset.Ico 1 n, ω ^ d ≠ 1)
    (f : ℕ → F) {i : ℕ} (hi : i < n) :
    ∑ k ∈ Finset.range n, (∑ j ∈ Finset.range n, f j * ω ^ (k * j)) * ω⁻¹ ^ (i * k) =
      (n : F) * f i := by
  have key : ∀ k ∈ Finset.range n,
      (∑ j ∈ Finset.range n, f j * ω ^ (k * j)) * ω⁻¹ ^ (i * k) =
        ∑ j ∈ Finset.range n, f j * (ω ^ j * (ω ^ i)⁻¹) ^ k := by
    intro k _
    rw [Finset.sum_mul]
    refine Finset.sum_congr rfl fun j _ => ?_
    rw [mul_assoc]
    congr 1
    rw [mul_comm k j, pow_mul, pow_mul, inv_pow, ← mul_pow]
  rw [Finset.sum_congr rfl key, Finset.sum_comm]
  have inner : ∀ j ∈ Finset.range n,
      ∑ k ∈ Finset.range n, f j * (ω ^ j * (ω ^ i)⁻¹) ^ k =
        if j = i then f j * (n : F) else 0 := by
    intro j hj
    rw [← Finset.mul_sum, geom_sum_pow_eq hn hω hprim hi (Finset.mem_range.mp hj)]
    by_cases hji : j = i
    · rw [if_pos hji, if_pos hji]
    · rw [if_neg hji, if_neg hji, mul_zero]
  rw [Finset.sum_congr rfl inner, Finset.sum_ite_eq' (Finset.range n) i fun j => f j * (n : F),
    if_pos (Finset.mem_range.mpr hi), mul_comm]

/-! ### Closed forms for the two transforms on exact-length input -/

namespace extended_radix2_domain

lemma fft_eq_of_length_eq (D : extended_radix2_domain F) (a : List F)
    (hm : D.m = 2 * D.small_m) (ha : a.length = D.m) :
    D.fft a = some ((List.range D.m).map fun i =>
      if i < D.small_m then
        ∑ j ∈ Finset.range D.small_m,
          (a.getD j 0 + a.getD (D.small_m + j) 0) * D.omega ^ (i * j)
      else
        ∑ j ∈ Finset.range D.small_m,
          D.shift ^ j * (a.getD j 0 + D.shift ^ D.small_m * a.getD (D.small_m + j) 0) *
            D.omega ^ ((i - D.small_m) * j)) := by
  rw [fft, if_neg (by omega), ha]
  simp only [Nat.sub_self, List.replicate_zero, List.append_nil]
  congr 1
  refine List.map_congr_left fun i hi => ?_
  rw [List.mem_range] at hi
  by_cases h0 : i < D.small_m
  · rw [if_pos h0, if_pos h0,
      basic_radix2_fft_getD _ _ (by simpa using h0)]
    simp only [List.length_map, List.length_range]
    refine Finset.sum_congr rfl fun j hj => ?_
    rw [getD_map_range _ _ (Finset.mem_range.mp hj)]
  · rw [if_neg h0, if_pos (by omega), if_neg h0,
      basic_radix2_fft_getD _ _ (by simp only [List.length_map, List.length_range]; omega)]
    simp only [List.length_map, List.length_range]
    refine Finset.sum_congr rfl fun j hj => ?_
    rw [getD_map_range _ _ (Finset.mem_range.mp hj)]

lemma inverse_fft_eq_of_length_eq (D : extended_radix2_domain F) (b : List F)
    (hm : D.m = 2 * D.small_m) (hb : b.length = D.m) :
    D.inverse_fft b = some ((List.range D.m).map fun i =>
      if i < D.small_m then
        ((D.small_m : F) * (1 - D.shift ^ D.small_m))⁻¹ *
          (-D.shift ^ D.small_m *
              (∑ j ∈ Finset.range D.small_m, b.getD j 0 * D.omega⁻¹ ^ (i * j)) +
            D.shift⁻¹ ^ i *
              (∑ j ∈ Finset.range D.small_m, b.getD (D.small_m + j) 0 * D.omega⁻¹ ^ (i * j)))
      else
        ((D.small_m : F) * (1 - D.shift ^ D.small_m))⁻¹ *
          ((∑ j ∈ Finset.range D.small_m,
              b.getD j 0 * D.omega⁻¹ ^ ((i - D.small_m) * j)) -
            D.shift⁻¹ ^ (i - D.small_m) *
              (∑ j ∈ Finset.range D.small_m,
                b.getD (D.small_m + j) 0 * D.omega⁻¹ ^ ((i - D.small_m) * j)))) := by
  rw [inverse_fft, if_neg (by omega), hb]
  simp only [Nat.sub_self, List.replicate_zero, List.append_nil]
  have hTake : (b.take D.small_m).length = D.small_m := by
    rw [List.length_take]
    omega
  have hDrop : (b.drop D.small_m).length = D.small_m := by
    rw [List.length_drop]
    omega
  have hc0 : ∀ e : ℕ,
      ∑ j ∈ Finset.range D.small_m, (b.take D.small_m).getD j 0 * D.omega⁻¹ ^ (e * j) =
        ∑ j ∈ Finset.range D.small_m, b.getD j 0 * D.omega⁻¹ ^ (e * j) :=
    fun e => Finset.sum_congr rfl fun j hj => by
      rw [getD_take _ _ (Finset.mem_range.mp hj)]
  have hc1 : ∀ e : ℕ,
      ∑ j ∈ Finset.range D.small_m, (b.drop D.small_m).getD j 0 * D.omega⁻¹ ^ (e * j) =
        ∑ j ∈ Finset.range D.small_m, b.getD (D.small_m + j) 0 * D.omega⁻¹ ^ (e * j) :=
    fun e => Finset.sum_congr rfl fun j hj => by rw [getD_drop]
  congr 1
  refine List.map_congr_left fun i hi => ?_
  rw [List.mem_range] at hi
  by_cases h0 : i < D.small_m
  · rw [if_pos h0, if_pos h0,
      basic_radix2_fft_getD _ _ (by omega), basic_radix2_fft_getD _ _ (by omega), hTake, hDrop,
      hc0, hc1]
  · rw [if_neg h0, if_pos (by omega), if_neg h0,
      basic_radix2_fft_getD _ _ (by omega), basic_radix2_fft_getD _ _ (by omega), hTake, hDrop,
      hc0, hc1]

lemma inverse_fft_of_map_range (D : extended_radix2_domain F)
    (hm : D.m = 2 * D.small_m) (g : ℕ → F) :
    D.inverse_fft ((List.range D.m).map g) =
      some ((List.range D.m).map fun i =>
        if i < D.small_m then
          ((D.small_m : F) * (1 - D.shift ^ D.small_m))⁻¹ *
            (-D.shift ^ D.small_m *
                (∑ j ∈ Finset.range D.small_m, g j * D.omega⁻¹ ^ (i * j)) +
              D.shift⁻¹ ^ i *
                (∑ j ∈ Finset.range D.small_m, g (D.small_m + j) * D.omega⁻¹ ^ (i * j)))
        else
          ((D.small_m : F) * (1 - D.shift ^ D.small_m))⁻¹ *
            ((∑ j ∈ Finset.range D.small_m,
                g j * D.omega⁻¹ ^ ((i - D.small_m) * j)) -
              D.shift⁻¹ ^ (i - D.small_m) *
                (∑ j ∈ Finset.range D.small_m,
                  g (D.small_m + j) * D.omega⁻¹ ^ ((i - D.small_m) * j)))) := by
  rw [inverse_fft_eq_of_length_eq D _ hm (by simp)]
  have hg : ∀ j, j < D.m → ((List.range D.m).map g).getD j 0 = g j :=
    fun j hj => getD_map_range _ _ hj
  have ht0 : ∀ e : ℕ,
      ∑ j ∈ Finset.range D.small_m,
          ((List.range D.m).map g).getD j 0 * D.omega⁻¹ ^ (e * j) =
        ∑ j ∈ Finset.range D.small_m, g j * D.omega⁻¹ ^ (e * j) :=
    fun e => Finset.sum_congr rfl fun j hj => by
      rw [hg j (by have := Finset.mem_range.mp hj; omega)]
  have ht1 : ∀ e : ℕ,
      ∑ j ∈ Finset.range D.small_m,
          ((List.range D.m).map g).getD (D.small_m + j) 0 * D.omega⁻¹ ^ (e * j) =
        ∑ j ∈ Finset.range D.small_m, g (D.small_m + j) * D.omega⁻¹ ^ (e * j) :=
    fun e => Finset.sum_congr rfl fun j hj => by
      rw [hg _ (by have := Finset.mem_range.mp hj; omega)]
  congr 1
  refine List.map_congr_left fun i hi => ?_
  by_cases h0 : i < D.small_m
  · rw [if_pos h0, if_pos h0, ht0, ht1]
  · rw [if_neg h0, if_neg h0, ht0, ht1]

/-- Claim C1: on every extended radix-2 domain with valid parameters
(`m = 2*small_m`, `omega` a primitive `small_m`-th root of unity,
`small_m` invertible in the field, `shift` a unit with
`shift^small_m ≠ 1`), applying `fft` and then `inverse_fft` to a
coefficient vector of length `m` returns exactly the original vector. -/
theorem fft_inverse_fft_roundtrip (D : extended_radix2_domain F) (a : List F)
    (hm : D.m = 2 * D.small_m) (hn : 0 < D.small_m)
    (hω1 : D.omega ^ D.small_m = 1)
    (hprim : ∀ d ∈ Finset.Ico 1 D.small_m, D.omega ^ d ≠ 1)
    (hchar : (D.small_m : F) ≠ 0)
    (hs0 : D.shift ≠ 0) (hs1 : D.shift ^ D.small_m ≠ 1)
    (ha : a.length = D.m) :
    (D.fft a).bind D.inverse_fft = some a := by
  rw [fft_eq_of_length_eq D a hm ha, Option.some_bind, inverse_fft_of_map_range D hm]
  have key0 : ∀ e : ℕ, e < D.small_m →
      (∑ j ∈ Finset.range D.small_m,
        (if j < D.small_m then
          ∑ l ∈ Finset.range D.small_m,
            (a.getD l 0 + a.getD (D.small_m + l) 0) * D.omega ^ (j * l)
        else
          ∑ l ∈ Finset.range D.small_m,
            D.shift ^ l * (a.getD l 0 + D.shift ^ D.small_m * a.getD (D.small_m + l) 0) *
              D.omega ^ ((j - D.small_m) * l)) * D.omega⁻¹ ^ (e * j)) =
        (D.small_m : F) * (a.getD e 0 + a.getD (D.small_m + e) 0) := by
    intro e he
    rw [Finset.sum_congr rfl fun j hj => by rw [if_pos (Finset.mem_range.mp hj)]]
    exact dft_dft hn hω1 hprim _ he
  have key1 : ∀ e : ℕ, e < D.small_m →
      (∑ j ∈ Finset.range D.small_m,
        (if D.small_m + j < D.small_m then
          ∑ l ∈ Finset.range D.small_m,
            (a.getD l 0 + a.getD (D.small_m + l) 0) * D.omega ^ ((D.small_m + j) * l)
        else
          ∑ l ∈ Finset.range D.small_m,
            D.shift ^ l * (a.getD l 0 + D.shift ^ D.small_m * a.getD (D.small_m + l) 0) *
              D.omega ^ ((D.small_m + j - D.small_m) * l)) * D.omega⁻¹ ^ (e * j)) =
        (D.small_m : F) *
          (D.shift ^ e * (a.getD e 0 + D.shift ^ D.small_m * a.getD (D.small_m + e) 0)) := by
    intro e he
    rw [Finset.sum_congr rfl fun j hj => by
      rw [if_neg (by omega), Nat.add_sub_cancel_left]]
    exact dft_dft hn hω1 hprim _ he
  congr 1
  refine List.ext_getElem (by simp [ha]) fun i h1 h2 => ?_
  rw [List.getElem_map, List.getElem_range]
  have hK : (D.small_m : F) * (1 - D.shift ^ D.small_m) ≠ 0 :=
    mul_ne_zero hchar (sub_ne_zero_of_ne (Ne.symm hs1))
  have hcancel : ∀ e : ℕ, e < D.small_m →
      D.shift⁻¹ ^ e * ((D.small_m : F) *
          (D.shift ^ e * (a.getD e 0 + D.shift ^ D.small_m * a.getD (D.small_m + e) 0))) =
        (D.small_m : F) * (a.getD e 0 + D.shift ^ D.small_m * a.getD (D.small_m + e) 0) := by
    intro e _
    have hse : D.shift ^ e ≠ 0 := pow_ne_zero _ hs0
    calc D.shift⁻¹ ^ e * ((D.small_m : F) *
          (D.shift ^ e * (a.getD e 0 + D.shift ^ D.small_m * a.getD (D.small_m + e) 0))) =
        ((D.shift ^ e)⁻¹ * D.shift ^ e) * ((D.small_m : F) *
          (a.getD e 0 + D.shift ^ D.small_m * a.getD (D.small_m + e) 0)) := by
          rw [inv_pow]; ring
      _ = (D.small_m : F) * (a.getD e 0 + D.shift ^ D.small_m * a.getD (D.small_m + e) 0) := by
          rw [inv_mul_cancel₀ hse, one_mul]
  have hi2 : i < D.m := by simpa using h1
  by_cases h0 : i < D.small_m
  · rw [if_pos h0, key0 i h0, key1 i h0, hcancel i h0]
    have halg : -D.shift ^ D.small_m *
          ((D.small_m : F) * (a.getD i 0 + a.getD (D.small_m + i) 0)) +
        (D.small_m : F) * (a.getD i 0 + D.shift ^ D.small_m * a.getD (D.small_m + i) 0) =
          ((D.small_m : F) * (1 - D.shift ^ D.small_m)) * a.getD i 0 := by ring
    rw [halg, inv_mul_cancel_left₀ hK, List.getD_eq_getElem a 0 (by omega)]
  · have he : i - D.small_m < D.small_m := by omega
    rw [if_neg h0, key0 _ he, key1 _ he, hcancel _ he]
    have halg : (D.small_m : F) * (a.getD (i - D.small_m) 0 + a.getD (D.small_m + (i - D.small_m)) 0) -
        (D.small_m : F) * (a.getD (i - D.small_m) 0 +
          D.shift ^ D.small_m * a.getD (D.small_m + (i - D.small_m)) 0) =
          ((D.small_m : F) * (1 - D.shift ^ D.small_m)) *
            a.getD (D.small_m + (i - D.small_m)) 0 := by ring
    rw [halg, inv_mul_cancel_left₀ hK]
    have hie : D.small_m + (i - D.small_m) = i := by omega
    rw [hie, List.getD_eq_getElem a 0 (by omega)]

/-- Claim C2: for a coefficient vector `a` of length `m`, each entry `i`
of `fft a` is the standard coefficient-form evaluation of `a` at
`get_domain_element i` — the values at `omega^0..omega^(small_m-1)`
followed by those at `shift*omega^0..shift*omega^(small_m-1)`. -/
theorem fft_evaluation_consistency (D : extended_radix2_domain F) (a b : List F)
    (hm : D.m = 2 * D.small_m)
    (hω1 : D.omega ^ D.small_m = 1)
    (ha : a.length = D.m)
    (hb : D.fft a = some b) :
    ∀ i, i < D.m → b.getD i 0 = evaluate_polynomial a (D.get_domain_element i) := by
  rw [fft_eq_of_length_eq D a hm ha] at hb
  have hb' := Option.some.inj hb
  subst hb'
  intro i hi
  rw [getD_map_range _ _ hi, evaluate_polynomial, ha, hm, two_mul, sum_range_add_split,
    get_domain_element]
  by_cases h0 : i < D.small_m
  · rw [if_pos h0, if_pos h0, ← Finset.sum_add_distrib]
    refine Finset.sum_congr rfl fun j hj => ?_
    have e1 : (D.omega ^ i) ^ j = D.omega ^ (i * j) := (pow_mul _ _ _).symm
    have e2 : (D.omega ^ i) ^ (D.small_m + j) = D.omega ^ (i * j) := by
      rw [pow_add, pow_right_comm, hω1, one_pow, one_mul, e1]
    rw [e1, e2]
    ring
  · rw [if_neg h0, if_neg h0, ← Finset.sum_add_distrib]
    refine Finset.sum_congr rfl fun j hj => ?_
    have e1 : (D.shift * D.omega ^ (i - D.small_m)) ^ j =
        D.shift ^ j * D.omega ^ ((i - D.small_m) * j) := by
      rw [mul_pow, ← pow_mul]
    have e2 : (D.shift * D.omega ^ (i - D.small_m)) ^ (D.small_m + j) =
        D.shift ^ D.small_m * (D.shift ^ j * D.omega ^ ((i - D.small_m) * j)) := by
      rw [pow_add, e1, mul_pow, pow_right_comm, hω1, one_pow, mul_one]
    rw [e1, e2]
    ring

/-- Claim C4: `compute_vanishing_polynomial t` is the closed form
`(t^small_m - 1) * (t^small_m - shift^small_m)`, and it is zero at every
domain point. -/
theorem compute_vanishing_polynomial_spec (D : extended_radix2_domain F)
    (hω1 : D.omega ^ D.small_m = 1) :
    (∀ t : F, D.compute_vanishing_polynomial t =
      (t ^ D.small_m - 1) * (t ^ D.small_m - D.shift ^ D.small_m)) ∧
    ∀ i, i < D.m → D.compute_vanishing_polynomial (D.get_domain_element i) = 0 := by
  refine ⟨fun t => rfl, fun i hi => ?_⟩
  rw [compute_vanishing_polynomial, get_domain_element]
  by_cases h0 : i < D.small_m
  · rw [if_pos h0, pow_right_comm, hω1, one_pow, sub_self, zero_mul]
  · rw [if_neg h0, mul_pow, pow_right_comm, hω1, one_pow, mul_one, sub_self, mul_zero]

/-- Claim C8: `fft` and `inverse_fft` reject a vector longer than `m`
and zero-pad a shorter one, so that on a short vector they agree with
the run on its zero-padded extension. -/
theorem fft_size_handling (D : extended_radix2_domain F) (a : List F) :
    (D.m < a.length → D.fft a = none ∧ D.inverse_fft a = none) ∧
    (a.length < D.m →
      D.fft a = D.fft (a ++ List.replicate (D.m - a.length) 0) ∧
      D.inverse_fft a = D.inverse_fft (a ++ List.replicate (D.m - a.length) 0)) := by
  constructor
  · intro h
    exact ⟨by rw [fft, if_pos h], by rw [inverse_fft, if_pos h]⟩
  · intro h
    have hlen : (a ++ List.replicate (D.m - a.length) (0 : F)).length = D.m := by
      rw [List.length_append, List.length_replicate]
      omega
    constructor
    · rw [fft, fft, if_neg (by omega), if_neg (by omega), hlen,
        Nat.sub_self, List.replicate_zero, List.append_nil]
    · rw [inverse_fft, inverse_fft, if_neg (by omega), if_neg (by omega), hlen,
        Nat.sub_self, List.replicate_zero, List.append_nil]

/-- Claim C10: `get_domain_element` is total — for every `idx ≥ small_m`,
in-range or not, it returns `shift * omega^(idx - small_m)`, and (for
valid parameters) an out-of-range index silently yields the wrapped-around
domain point of index `small_m + (idx - small_m) % small_m`. -/
theorem get_domain_element_total (D : extended_radix2_domain F) (idx : ℕ)
    (h : D.small_m ≤ idx) :
    D.get_domain_element idx = D.shift * D.omega ^ (idx - D.small_m) ∧
    (D.omega ^ D.small_m = 1 → 0 < D.small_m →
      D.get_domain_element idx =
        D.get_domain_element (D.small_m + (idx - D.small_m) % D.small_m)) := by
  constructor
  · rw [get_domain_element, if_neg (by omega)]
  · intro hω1 hn
    rw [get_domain_element, get_domain_element, if_neg (by omega), if_neg (by omega),
      Nat.add_sub_cancel_left]
    congr 1
    exact pow_eq_pow_mod _ hω1

end extended_radix2_domain

/-! ### Lagrange-basis lemmas -/

lemma basic_lagrange_getD {n : ℕ} (g t : F) {i : ℕ} (h : i < n) :
    (basic_radix2_evaluate_all_lagrange_polynomials n g t).getD i 0 =
      ∏ j ∈ (Finset.range n).erase i, (t - g ^ j) / (g ^ i - g ^ j) := by
  rw [basic_radix2_evaluate_all_lagrange_polynomials, getD_map_range _ _ h]

lemma basic_lagrange_delta {ω : F} {n : ℕ} (h0 : ω ≠ 0)
    (hprim : ∀ d ∈ Finset.Ico 1 n, ω ^ d ≠ 1)
    {k i : ℕ} (hk : k < n) (hi : i < n) :
    (basic_radix2_evaluate_all_lagrange_polynomials n ω (ω ^ k)).getD i 0 =
      if i = k then 1 else 0 := by
  rw [basic_lagrange_getD _ _ hi]
  by_cases hik : i = k
  · subst hik
    rw [if_pos rfl]
    refine Finset.prod_eq_one fun j hj => ?_
    obtain ⟨hji, hjn⟩ := Finset.mem_erase.mp hj
    have hne : ω ^ i - ω ^ j ≠ 0 := sub_ne_zero_of_ne fun hEq =>
      hji (pow_inj_of_prim h0 hprim hi (Finset.mem_range.mp hjn) hEq).symm
    exact div_self hne
  · rw [if_neg hik]
    refine Finset.prod_eq_zero
      (Finset.mem_erase.mpr ⟨fun h => hik h.symm, Finset.mem_range.mpr hk⟩) ?_
    rw [sub_self, zero_div]

namespace extended_radix2_domain

lemma evaluate_all_lagrange_length (D : extended_radix2_domain F) (t : F) :
    (D.evaluate_all_lagrange_polynomials t).length = D.m := by
  simp [evaluate_all_lagrange_polynomials]

lemma evaluate_all_lagrange_getD (D : extended_radix2_domain F) (t : F) {j : ℕ}
    (hj : j < D.m) :
    (D.evaluate_all_lagrange_polynomials t).getD j 0 =
      if j < D.small_m then
        (basic_radix2_evaluate_all_lagrange_polynomials D.small_m D.omega t).getD j 0 *
          ((t ^ D.small_m - D.shift ^ D.small_m) * -(D.shift ^ D.small_m - 1)⁻¹)
      else if j < D.small_m + D.small_m then
        (basic_radix2_evaluate_all_lagrange_polynomials D.small_m D.omega
            (t * D.shift⁻¹)).getD (j - D.small_m) 0 *
          ((t ^ D.small_m - 1) * (D.shift ^ D.small_m - 1)⁻¹)
      else 0 := by
  simp only [evaluate_all_lagrange_polynomials]
  rw [getD_map_range _ _ hj]

/-- Claim C3: at the `i`-th domain point, the Lagrange-basis vector has
length `m`, entry `i` equal to one and every other entry equal to zero. -/
theorem evaluate_all_lagrange_polynomials_kronecker (D : extended_radix2_domain F)
    (hm : D.m = 2 * D.small_m) (hn : 0 < D.small_m)
    (hω1 : D.omega ^ D.small_m = 1)
    (hprim : ∀ d ∈ Finset.Ico 1 D.small_m, D.omega ^ d ≠ 1)
    (hs0 : D.shift ≠ 0) (hs1 : D.shift ^ D.small_m ≠ 1)
    (i : ℕ) (hi : i < D.m) :
    (D.evaluate_all_lagrange_polynomials (D.get_domain_element i)).length = D.m ∧
    (D.evaluate_all_lagrange_polynomials (D.get_domain_element i)).getD i 0 = 1 ∧
    ∀ j, j < D.m → j ≠ i →
      (D.evaluate_all_lagrange_polynomials (D.get_domain_element i)).getD j 0 = 0 := by
  have h0 : D.omega ≠ 0 := omega_ne_zero hn hω1
  by_cases hi0 : i < D.small_m
  · rw [get_domain_element, if_pos hi0]
    have htn : (D.omega ^ i) ^ D.small_m = 1 := by
      rw [pow_right_comm, hω1, one_pow]
    have hT0c : ((D.omega ^ i) ^ D.small_m - D.shift ^ D.small_m) *
        -(D.shift ^ D.small_m - 1)⁻¹ = 1 := by
      rw [htn]
      have hr : (1 - D.shift ^ D.small_m) * -(D.shift ^ D.small_m - 1)⁻¹ =
          (D.shift ^ D.small_m - 1) * (D.shift ^ D.small_m - 1)⁻¹ := by ring
      rw [hr, mul_inv_cancel₀ (sub_ne_zero_of_ne hs1)]
    have hT1c : ((D.omega ^ i) ^ D.small_m - 1) * (D.shift ^ D.small_m - 1)⁻¹ = 0 := by
      rw [htn, sub_self, zero_mul]
    refine ⟨evaluate_all_lagrange_length D _, ?_, ?_⟩
    · rw [evaluate_all_lagrange_getD D _ hi, if_pos hi0,
        basic_lagrange_delta h0 hprim hi0 hi0, if_pos rfl, one_mul, hT0c]
    · intro j hj hne
      rw [evaluate_all_lagrange_getD D _ hj]
      by_cases hj0 : j < D.small_m
      · rw [if_pos hj0, basic_lagrange_delta h0 hprim hi0 hj0, if_neg hne, zero_mul]
      · rw [if_neg hj0, if_pos (by omega), hT1c, mul_zero]
  · rw [get_domain_element, if_neg hi0]
    have he : i - D.small_m < D.small_m := by omega
    have htn : (D.shift * D.omega ^ (i - D.small_m)) ^ D.small_m = D.shift ^ D.small_m := by
      rw [mul_pow, pow_right_comm, hω1, one_pow, mul_one]
    have hts : D.shift * D.omega ^ (i - D.small_m) * D.shift⁻¹ =
        D.omega ^ (i - D.small_m) := by
      rw [mul_comm D.shift, mul_assoc, mul_inv_cancel₀ hs0, mul_one]
    refine ⟨evaluate_all_lagrange_length D _, ?_, ?_⟩
    · rw [evaluate_all_lagrange_getD D _ hi, if_neg hi0, if_pos (by omega), hts,
        basic_lagrange_delta h0 hprim he he, if_pos rfl, one_mul, htn,
        mul_inv_cancel₀ (sub_ne_zero_of_ne hs1)]
    · intro j hj hne
      rw [evaluate_all_lagrange_getD D _ hj]
      by_cases hj0 : j < D.small_m
      · rw [if_pos hj0, htn, sub_self, zero_mul, mul_zero]
      · have hje : j - D.small_m < D.small_m := by omega
        have hjne : j - D.small_m ≠ i - D.small_m := by omega
        rw [if_neg hj0, if_pos (by omega), hts,
          basic_lagrange_delta h0 hprim he hje, if_neg hjne, zero_mul]

/-- Claim C5: on a vector of length `m`, `divide_by_z_on_coset` divides
each entry by the vanishing polynomial evaluated at `g` times the
corresponding domain point: the first `small_m` entries by the scalar
`Z0 = compute_vanishing_polynomial (g * omega^i)` and the second
`small_m` entries by `Z1 = compute_vanishing_polynomial (g * shift * omega^i)`. -/
theorem divide_by_z_on_coset_spec (D : extended_radix2_domain F) (g : F) (P : List F)
    (hm : D.m = 2 * D.small_m) (hω1 : D.omega ^ D.small_m = 1)
    (hP : P.length = D.m) :
    (D.divide_by_z_on_coset g P).length = D.m ∧
    ∀ i, i < D.small_m →
      (D.divide_by_z_on_coset g P).getD i 0 =
        P.getD i 0 * (D.compute_vanishing_polynomial (g * D.get_domain_element i))⁻¹ ∧
      (D.divide_by_z_on_coset g P).getD (D.small_m + i) 0 =
        P.getD (D.small_m + i) 0 *
          (D.compute_vanishing_polynomial (g * D.get_domain_element (D.small_m + i)))⁻¹ := by
  have hv0 : ∀ i, i < D.small_m →
      D.compute_vanishing_polynomial (g * D.get_domain_element i) =
        (g ^ D.small_m - 1) * (g ^ D.small_m - D.shift ^ D.small_m) := by
    intro i hi
    rw [compute_vanishing_polynomial, get_domain_element, if_pos hi, mul_pow,
      pow_right_comm, hω1, one_pow, mul_one]
  have hv1 : ∀ i, i < D.small_m →
      D.compute_vanishing_polynomial (g * D.get_domain_element (D.small_m + i)) =
        (g ^ D.small_m * D.shift ^ D.small_m - 1) *
          (g ^ D.small_m * D.shift ^ D.small_m - D.shift ^ D.small_m) := by
    intro i hi
    rw [compute_vanishing_polynomial, get_domain_element, if_neg (by omega),
      Nat.add_sub_cancel_left, mul_pow, mul_pow, pow_right_comm, hω1, one_pow, mul_one]
  have hent : ∀ j, j < D.m → (D.divide_by_z_on_coset g P).getD j 0 =
      if j < D.small_m then
        P.getD j 0 * ((g ^ D.small_m - 1) * (g ^ D.small_m - D.shift ^ D.small_m))⁻¹
      else if j < D.small_m + D.small_m then
        P.getD j 0 * ((g ^ D.small_m * D.shift ^ D.small_m - 1) *
          (g ^ D.small_m * D.shift ^ D.small_m - D.shift ^ D.small_m))⁻¹
      else P.getD j 0 := by
    intro j hj
    simp only [divide_by_z_on_coset]
    rw [getD_map_range _ _ (by omega : j < P.length)]
  refine ⟨by simp [divide_by_z_on_coset, hP], fun i hi => ⟨?_, ?_⟩⟩
  · rw [hent i (by omega), if_pos hi, hv0 i hi]
  · rw [hent _ (by omega), if_neg (by omega), if_pos (by omega), hv1 i hi]

/-- Claim C6: on a vector `H` of length `m+1`, `add_poly_z` adds `coeff`
to `H[m]`, subtracts `coeff * (shift^small_m + 1)` from `H[small_m]`,
adds `coeff * shift^small_m` to `H[0]`, leaves all other entries
unchanged — i.e. it adds `coeff` times the coefficient vector of
`x^m - (shift^small_m + 1)*x^small_m + shift^small_m`, the algebraic
expansion of `compute_vanishing_polynomial`. -/
theorem add_poly_z_spec (D : extended_radix2_domain F) (coeff : F) (H : List F)
    (hm : D.m = 2 * D.small_m) (hn : 0 < D.small_m)
    (hH : H.length = D.m + 1) :
    (D.add_poly_z coeff H).length = D.m + 1 ∧
    (D.add_poly_z coeff H).getD D.m 0 = H.getD D.m 0 + coeff ∧
    (D.add_poly_z coeff H).getD D.small_m 0 =
      H.getD D.small_m 0 - coeff * (D.shift ^ D.small_m + 1) ∧
    (D.add_poly_z coeff H).getD 0 0 = H.getD 0 0 + coeff * D.shift ^ D.small_m ∧
    (∀ j, j ≠ 0 → j ≠ D.small_m → j ≠ D.m →
      (D.add_poly_z coeff H).getD j 0 = H.getD j 0) ∧
    ∀ t : F, D.compute_vanishing_polynomial t =
      t ^ D.m - (D.shift ^ D.small_m + 1) * t ^ D.small_m + D.shift ^ D.small_m := by
  have hsetD_eq : ∀ (l : List F) (i : ℕ) (a : F), i < l.length →
      (l.set i a).getD i 0 = a := by
    intro l i a h
    rw [List.getD_eq_getElem?_getD, List.getElem?_set_self h, Option.getD_some]
  have hsetD_ne : ∀ (l : List F) (i j : ℕ) (a : F), i ≠ j →
      (l.set i a).getD j 0 = l.getD j 0 := by
    intro l i j a h
    rw [List.getD_eq_getElem?_getD, List.getElem?_set_ne h, ← List.getD_eq_getElem?_getD]
  refine ⟨?_, ?_, ?_, ?_, ?_, ?_⟩
  · simp [add_poly_z, hH]
  · simp only [add_poly_z]
    rw [hsetD_ne _ 0 D.m _ (by omega), hsetD_ne _ D.small_m D.m _ (by omega),
      hsetD_eq _ D.m _ (by simp [hH])]
  · simp only [add_poly_z]
    rw [hsetD_ne _ 0 D.small_m _ (by omega),
      hsetD_eq _ D.small_m _ (by simp [hH]; omega),
      hsetD_ne _ D.m D.small_m _ (by omega)]
  · simp only [add_poly_z]
    rw [hsetD_eq _ 0 _ (by simp [hH]),
      hsetD_ne _ D.small_m 0 _ (by omega), hsetD_ne _ D.m 0 _ (by omega)]
  · intro j h0 hns hms
    simp only [add_poly_z]
    rw [hsetD_ne _ 0 j _ (Ne.symm h0), hsetD_ne _ D.small_m j _ (Ne.symm hns),
      hsetD_ne _ D.m j _ (Ne.symm hms)]
  · intro t
    rw [compute_vanishing_polynomial, hm, two_mul, pow_add]
    ring

end extended_radix2_domain

/-- Claim C9: the `lagrange_interpolation` routine ignores its input and
always returns the default-constructed (empty/zero) polynomial. -/
theorem lagrange_interpolation_stub (points : List (F × F)) :
    lagrange_interpolation points = ([] : List F) ∧
    lagrange_interpolation points = lagrange_interpolation ([] : List (F × F)) :=
  ⟨rfl, rfl⟩

/-- Claim C7 (amended): the constructor rejects `m ≤ 1` and
`ceil_log2 m ≠ s + 1` with `InvalidDomainSize`; among the remaining
sizes it succeeds — with `small_m = m / 2`, `omega` the unity root of
order `m / 2`, `shift` the coset-shift constant — exactly when `m / 2`
is a power of two of exponent at most `s`, and otherwise fails inside
`unity_root`. -/
theorem mk_extended_radix2_domain_spec (p : arithmetic_params F) (m : ℕ) :
    ((m ≤ 1 ∨ ceil_log2 m ≠ p.s + 1) →
      mk_extended_radix2_domain p m = .error DomainError.InvalidDomainSize) ∧
    (1 < m → ceil_log2 m = p.s + 1 →
      m / 2 = 2 ^ ceil_log2 (m / 2) → ceil_log2 (m / 2) ≤ p.s →
      mk_extended_radix2_domain p m =
        .ok ⟨m, m / 2, p.root_of_unity ^ 2 ^ (p.s - ceil_log2 (m / 2)), p.coset_shift⟩) ∧
    (1 < m → ceil_log2 m = p.s + 1 →
      (m / 2 ≠ 2 ^ ceil_log2 (m / 2) ∨ p.s < ceil_log2 (m / 2)) →
      mk_extended_radix2_domain p m = .error DomainError.InvalidUnityRootOrder) := by
  refine ⟨?_, ?_, ?_⟩
  · intro h
    by_cases hm1 : m ≤ 1
    · rw [mk_extended_radix2_domain, if_pos hm1]
    · have hc : ceil_log2 m ≠ p.s + 1 := h.resolve_left hm1
      rw [mk_extended_radix2_domain, if_neg hm1, if_pos hc]
  · intro h1 h2 h3 h4
    have hu : unity_root p (m / 2) =
        Except.ok (p.root_of_unity ^ 2 ^ (p.s - ceil_log2 (m / 2))) := by
      simp only [unity_root]
      rw [if_neg (by omega), if_neg (by omega)]
    rw [mk_extended_radix2_domain, if_neg (by omega), if_neg (by omega), hu]
  · intro h1 h2 h3
    have hu : unity_root p (m / 2) = Except.error DomainError.InvalidUnityRootOrder := by
      simp only [unity_root]
      rcases h3 with h3 | h3
      · rw [if_pos h3]
      · by_cases hfirst : m / 2 ≠ 2 ^ ceil_log2 (m / 2)
        · rw [if_pos hfirst]
        · rw [if_neg hfirst, if_pos h3]
    rw [mk_extended_radix2_domain, if_neg (by omega), if_neg (by omega), hu]

/-! ### Concrete instances over `ZMod 5`

`ZMod 5` has multiplicative group of order `4`, 2-adicity `s = 2`,
`4` of order two and `2` of order four; `D4` is the size-4 extended
domain with `small_m = 2`, `omega = 4`, `shift = 2`. -/

instance : Fact (Nat.Prime 5) := ⟨by norm_num⟩

/-- A concrete valid extended radix-2 domain over `ZMod 5`. -/
def D4 : extended_radix2_domain (ZMod 5) :=
  ⟨4, 2, 4, 2⟩

/-- Concrete arithmetic parameters of `ZMod 5`: 2-adicity `2`, `2` a
root of unity of order `4` and also the generator and coset shift. -/
def P5 : arithmetic_params (ZMod 5) :=
  ⟨2, 2, 2, 2⟩

theorem fft_inverse_fft_roundtrip_witness :
    (D4.fft [1, 2, 3, 4]).bind D4.inverse_fft = some [1, 2, 3, 4] :=
  extended_radix2_domain.fft_inverse_fft_roundtrip D4 [1, 2, 3, 4] (by decide) (by decide)
    (by decide) (by decide) (by decide) (by decide) (by decide) (by decide)

theorem fft_evaluation_consistency_witness :
    ([0, 3, 4, 2] : List (ZMod 5)).getD 1 0 =
      evaluate_polynomial [1, 2, 3, 4] (D4.get_domain_element 1) :=
  extended_radix2_domain.fft_evaluation_consistency D4 [1, 2, 3, 4] [0, 3, 4, 2]
    (by decide) (by decide) (by decide) (by decide) 1 (by decide)

theorem evaluate_all_lagrange_polynomials_kronecker_witness :
    (D4.evaluate_all_lagrange_polynomials (D4.get_domain_element 1)).getD 1 0 = 1 :=
  (extended_radix2_domain.evaluate_all_lagrange_polynomials_kronecker D4 (by decide)
    (by decide) (by decide) (by decide) (by decide) (by decide) 1 (by decide)).2.1

theorem compute_vanishing_polynomial_spec_witness :
    D4.compute_vanishing_polynomial (D4.get_domain_element 3) = 0 :=
  (extended_radix2_domain.compute_vanishing_polynomial_spec D4 (by decide)).2 3 (by decide)

theorem divide_by_z_on_coset_spec_witness :
    (D4.divide_by_z_on_coset 2 [1, 2, 3, 4]).getD 1 0 =
      ([1, 2, 3, 4] : List (ZMod 5)).getD 1 0 *
        (D4.compute_vanishing_polynomial (2 * D4.get_domain_element 1))⁻¹ ∧
    (D4.divide_by_z_on_coset 2 [1, 2, 3, 4]).getD (D4.small_m + 1) 0 =
      ([1, 2, 3, 4] : List (ZMod 5)).getD (D4.small_m + 1) 0 *
        (D4.compute_vanishing_polynomial (2 * D4.get_domain_element (D4.small_m + 1)))⁻¹ :=
  (extended_radix2_domain.divide_by_z_on_coset_spec D4 2 [1, 2, 3, 4]
    (by decide) (by decide) (by decide)).2 1 (by decide)

theorem add_poly_z_spec_witness :
    (D4.add_poly_z 3 [1, 1, 1, 1, 1]).getD D4.m 0 =
      ([1, 1, 1, 1, 1] : List (ZMod 5)).getD D4.m 0 + 3 :=
  (extended_radix2_domain.add_poly_z_spec D4 3 [1, 1, 1, 1, 1]
    (by decide) (by decide) (by decide)).2.1

theorem fft_size_handling_witness :
    D4.fft [1, 2, 3] =
      D4.fft ([1, 2, 3] ++ List.replicate (D4.m - ([1, 2, 3] : List (ZMod 5)).length) 0) ∧
    D4.inverse_fft [1, 2, 3] =
      D4.inverse_fft
        ([1, 2, 3] ++ List.replicate (D4.m - ([1, 2, 3] : List (ZMod 5)).length) 0) :=
  (extended_radix2_domain.fft_size_handling D4 [1, 2, 3]).2 (by decide)

theorem get_domain_element_total_witness :
    D4.get_domain_element 5 =
      D4.get_domain_element (D4.small_m + (5 - D4.small_m) % D4.small_m) :=
  (extended_radix2_domain.get_domain_element_total D4 5 (by decide)).2 (by decide) (by decide)

theorem mk_extended_radix2_domain_spec_witness :
    mk_extended_radix2_domain P5 8 =
      .ok ⟨8, 8 / 2, P5.root_of_unity ^ 2 ^ (P5.s - ceil_log2 (8 / 2)), P5.coset_shift⟩ :=
  (mk_extended_radix2_domain_spec P5 8).2.1 (by decide) (by decide) (by decide) (by decide)

/-- Claim C7 counterexample: over `ZMod 5` (2-adicity `s = 2`) the size
`m = 6` satisfies both success conditions stated by the claim
(`6 > 1` and `ceil_log2 6 = s + 1`), yet construction does not succeed:
the unity-root lookup rejects the non-power-of-two order `6 / 2 = 3`. -/
theorem mk_extended_radix2_domain_m6_counterexample :
    (1 < 6 ∧ ceil_log2 6 = 2 + 1 ∧ P5.s = 2) ∧
    mk_extended_radix2_domain P5 6 = .error DomainError.InvalidUnityRootOrder :=
  ⟨⟨by decide, by decide, by decide⟩, rfl⟩

end Crypto3Math
